import Mathlib

/-!
Verification of the GenMap index-construction pipeline (`src/indexing.hpp`)
against its natural-language specification.

The development shallowly embeds the pipeline: the DNA alphabet is an
inductive type, sequence collections are lists of symbol lists, the
dimension-analysis loop, the manual-override step, the small-input
heuristic, the precision (tier) selector, the ingestion loops and the
construction orchestrator are Lean functions translated from the C++
source.  Machine integers are modelled as `Nat` with explicit `% 2 ^ 64`
where 64-bit wraparound matters.
-/

namespace GenMap

/-- The 5-letter DNA alphabet (seqan `Dna5`): A, C, G, T and the
unknown/ambiguous marker N. -/
inductive Dna5 where
  | A
  | C
  | G
  | T
  | N
deriving DecidableEq, Repr

/-- A decoded sequence record: its textual identifier and its symbol data
(seqan `readRecords` yields pairs of ids and sequences). -/
structure SeqRecord where
  id : String
  seq : List Dna5
deriving DecidableEq, Repr

/-- `lengthSum` of a string set (seqan `lengthSum`): the sum of the lengths
of all sequences, without any sentinel accounting. -/
def lengthSum (cs : List (List Dna5)) : Nat :=
  (cs.map List.length).sum

/-- The quantities computed by the analysis loop in `indexMain`
(`indexing.hpp` lines 375-389): `seqNumber`, `maxSeqLength`, `totalLength`
and the alphabet-reduction flag `canConvert`. -/
structure DimAnalysis where
  seqNumber : Nat
  maxSeqLength : Nat
  totalLength : Nat
  canConvert : Bool
deriving DecidableEq, Repr

/-- One iteration of the analysis loop body (`indexing.hpp` lines 379-389):
adds the chromosome length to `totalLength`, takes the running maximum for
`maxSeqLength`, and clears `canConvert` when a symbol equals `N`. -/
def analyzeStep (acc : DimAnalysis) (c : List Dna5) : DimAnalysis :=
  { acc with
    totalLength := acc.totalLength + c.length
    maxSeqLength := max acc.maxSeqLength c.length
    canConvert := acc.canConvert && !(c.contains Dna5.N) }

/-- The analysis loop of `indexMain` (`indexing.hpp` lines 375-389):
`seqNumber` is the number of chromosomes, `totalLength` starts at the
number of chromosomes (one sentinel per chromosome) and accumulates the
lengths, `maxSeqLength` starts at 0, `canConvert` starts `true`. -/
def analyzeDimensions (cs : List (List Dna5)) : DimAnalysis :=
  cs.foldl analyzeStep
    { seqNumber := cs.length
      maxSeqLength := 0
      totalLength := cs.length
      canConvert := true }

/-- `std::numeric_limits<uint16_t>::max()` -/
def max16bitUnsignedValue : Nat := 65535

/-- `std::numeric_limits<uint32_t>::max()` -/
def max32bitUnsignedValue : Nat := 4294967295

/-- The three integer-width tiers chosen by the precision selector:
the widths (in bits) of the sequence-number, sequence-position and
BWT-length (total length) coordinate types. -/
structure Tiers where
  seqNoWidth : Nat
  seqPosWidth : Nat
  totalLenWidth : Nat
deriving DecidableEq, Repr

/-- The tier-dispatch overload of `buildIndex` (`indexing.hpp` lines
113-133): chooses the width triple from `seqNumber`, `maxSeqLength` and
`totalLength` exactly as the chain of comparisons in the source.  Each
tier-instantiated call `buildIndex<TSeqNo, TSeqPos, TBWTLen>` is recorded
by the bit widths (`std::numeric_limits<T>::digits`) of the three types. -/
def selectTiers (seqNumber maxSeqLength totalLength : Nat) : Tiers :=
  if seqNumber ≤ max16bitUnsignedValue ∧ maxSeqLength ≤ max32bitUnsignedValue then
    if totalLength ≤ max32bitUnsignedValue then
      ⟨16, 32, 32⟩
    else
      ⟨16, 32, 64⟩
  else if seqNumber ≤ max32bitUnsignedValue ∧ maxSeqLength ≤ max16bitUnsignedValue then
    ⟨32, 16, 64⟩
  else
    ⟨64, 64, 64⟩

/-- The small-input heuristic of `indexMain` (`indexing.hpp` lines
411-417): when the radix (parallel) construction algorithm was requested
and `lengthSum(chromosomes)` is strictly below 1,000,000, `useRadix` is
reset to `false` (Skew7, the sequential algorithm, is used instead). -/
def adjustUseRadix (useRadix : Bool) (cs : List (List Dna5)) : Bool :=
  if useRadix && decide (lengthSum cs < 1000000) then false else useRadix

/-- The value `(static_cast<uint64_t>(1) << b) - 2` computed for a manual
dimension override (`indexing.hpp` lines 391-409), as 64-bit unsigned
arithmetic (the C++ shift is only defined for `b ≤ 63`, which is the range
this model is faithful on). -/
def overrideValue (b : Nat) : Nat :=
  (2 ^ b % 2 ^ 64 + (2 ^ 64 - 2)) % 2 ^ 64

/-- One optional manual override (`indexing.hpp` lines 391-409): when the
hidden option is set to bit-width `b` the computed quantity is replaced by
`overrideValue b`, otherwise it is left unchanged. -/
def applyOverride (computed : Nat) (override : Option Nat) : Nat :=
  match override with
  | none => computed
  | some b => overrideValue b

/-- The override step applied to the three computed dimensions
(`seqNumber`, `maxSeqLength`, `totalLength`) with the `seqno`, `seqpos`
and `bwtlen` hidden options (`indexing.hpp` lines 391-409). -/
def applyOverrides (seqNumber maxSeqLength totalLength : Nat)
    (seqno seqpos bwtlen : Option Nat) : Nat × Nat × Nat :=
  (applyOverride seqNumber seqno, applyOverride maxSeqLength seqpos,
    applyOverride totalLength bwtlen)

/-- The alphabet dispatch of `indexMain` (`indexing.hpp` lines 419-430)
combined with the `alphabet_size` computation of the tier-instantiated
`buildIndex` (`indexing.hpp` line 69): when `canConvert` holds the
collection is rebuilt over `Dna` (4 symbols, `alphabet_size = 4 + 0`),
otherwise it stays `Dna5` (`alphabet_size = 4 + 1`). -/
def alphabetSizeWritten (cs : List (List Dna5)) : Nat :=
  if (analyzeDimensions cs).canConvert then 4 else 5

/-- The recognized sequence-file extensions (`indexing.hpp` line 183). -/
def fastaFileTypes : List String :=
  ["fsa", "fna", "fastq", "fasta", "fas", "fa"]

/-- `std::string::find_last_of` for a single character: the index of the
last occurrence of `c` in `s`, or `none` (npos) when absent. -/
def find_last_of : List Char → Char → Option Nat
  | [], _ => none
  | x :: xs, c =>
    match find_last_of xs c with
    | some i => some (i + 1)
    | none => if x = c then some 0 else none

/-- `file.substr(file.find_last_of('.') + 1)` (`indexing.hpp` line 284):
the substring after the last dot; since `npos + 1 = 0`, a name without a
dot yields the whole name. -/
def fileExtension (name : String) : String :=
  match find_last_of name.toList '.' with
  | none => String.mk (name.toList.drop 0)
  | some i => String.mk (name.toList.drop (i + 1))

/-- The directory-mode filter (`indexing.hpp` lines 283-286): a directory
entry is kept when its extension is found in `fastaFileTypes`. -/
def keepFile (name : String) : Bool :=
  fastaFileTypes.contains (fileExtension name)

/-- The per-record ingestion loop (`indexing.hpp` lines 308-318 and
351-362): records of length 0 are skipped, all others are appended in
file order. -/
def ingestLoop (records : List SeqRecord) : List SeqRecord :=
  records.foldl (fun acc r => if r.seq.length = 0 then acc else acc ++ [r]) []

/-- The length sum of one file's decoded records
(`lengthSum(chromosomes2)` at `indexing.hpp` line 302). -/
def fileLengthSum (records : List SeqRecord) : Nat :=
  (records.map (fun r => r.seq.length)).sum

/-- Directory-mode treatment of one file (`indexing.hpp` lines 297-318):
a file whose records have length sum 0 is warned about and skipped
(contributes nothing), otherwise its records run through the per-record
loop. -/
def ingestFile (records : List SeqRecord) : List SeqRecord :=
  if fileLengthSum records = 0 then [] else ingestLoop records

/-- The sorted processing order of directory mode (`indexing.hpp` lines
278-289): entries surviving the extension filter, sorted lexicographically
(`std::sort` on `std::string`). -/
def sortedFilenames (entries : List String) : List String :=
  List.insertionSort (fun a b => a ≤ b) (entries.filter keepFile)

/-- Directory-mode ingestion (`indexing.hpp` lines 276-321): the files are
processed in sorted order and their retained records appended; `content`
maps a filename to the records `readRecords` decodes from it. -/
def ingestDirectory (entries : List String) (content : String → List SeqRecord) :
    List SeqRecord :=
  (sortedFilenames entries).foldl (fun acc f => acc ++ ingestFile (content f)) []

/-- Single-file-mode ingestion (`indexing.hpp` lines 341-362): just the
per-record loop over the file's decoded records. -/
def ingestSingle (records : List SeqRecord) : List SeqRecord :=
  ingestLoop records

/-- The empty-input failure (`ERROR: ... empty`, `indexing.hpp` lines
302-306, 323-328 and 364-369). -/
inductive IngestError where
  | EmptyInput
deriving DecidableEq, Repr

/-- Single-file ingestion with the empty check (`indexing.hpp` lines
364-369): zero retained records fail with `EmptyInput`. -/
def ingestSingleChecked (records : List SeqRecord) :
    Except IngestError (List SeqRecord) :=
  let cs := ingestSingle records
  if cs.length = 0 then .error .EmptyInput else .ok cs

/-- Directory ingestion with the empty check (`indexing.hpp` lines
323-328): zero retained records over all files fail with `EmptyInput`. -/
def ingestDirectoryChecked (entries : List String)
    (content : String → List SeqRecord) : Except IngestError (List SeqRecord) :=
  let cs := ingestDirectory entries content
  if cs.length = 0 then .error .EmptyInput else .ok cs

/-- The filenames warned about in directory mode (`indexing.hpp` lines
302-306): processed files whose decoded records have length sum 0. -/
def directoryWarnings (entries : List String)
    (content : String → List SeqRecord) : List String :=
  (sortedFilenames entries).filter (fun f => fileLengthSum (content f) == 0)

/-- The phases of the tier-instantiated `buildIndex` (`indexing.hpp` lines
67-110), in source order: write the `.info` manifest, build the forward
index, save it, reverse the concatenated text, build the backward index,
discard its sparse-array values/indicators, save it. -/
inductive Phase where
  | writeInfo
  | buildFwd
  | saveFwd
  | reverseText
  | buildBwd
  | discardAux
  | saveBwd
deriving DecidableEq, Repr

/-- Exceptions a construction phase may raise: `std::bad_alloc` or any
other `std::exception` carrying a message. -/
inductive BuildExn where
  | badAlloc
  | other (msg : String)
deriving DecidableEq, Repr

/-- Run a list of phases in order against an environment `oracle` telling
which phases raise which exception; returns the phases completed before
the first exception, and that exception if any. -/
def runPhases : List Phase → (Phase → Option BuildExn) → List Phase × Option BuildExn
  | [], _ => ([], none)
  | p :: ps, oracle =>
    match oracle p with
    | some e => ([], some e)
    | none =>
      let r := runPhases ps oracle
      (p :: r.1, r.2)

/-- The phase sequence of one `buildIndex` run (`indexing.hpp` lines
67-110). -/
def indexPhases : List Phase :=
  [.writeInfo, .buildFwd, .saveFwd, .reverseText, .buildBwd, .discardAux, .saveBwd]

/-- What the top-level `buildIndex` reports (`indexing.hpp` lines
136-173): the out-of-memory message suggesting another algorithm, the
generic construction-failure message with the underlying text, or the
success message. -/
inductive Report where
  | outOfMemory
  | constructionFailed (msg : String)
  | success
deriving DecidableEq, Repr

/-- The top-level `buildIndex` in release mode (`NDEBUG`, `indexing.hpp`
lines 138-161, 170-172): `std::bad_alloc` is caught and reported as the
out-of-memory failure with return code -1, any other exception as the
generic failure with its message and return code -1; otherwise the
success message is printed and 0 returned. -/
def buildIndexRelease (oracle : Phase → Option BuildExn) : Int × Report :=
  match (runPhases indexPhases oracle).2 with
  | some .badAlloc => (-1, .outOfMemory)
  | some (.other m) => (-1, .constructionFailed m)
  | none => (0, .success)

/-- The top-level `buildIndex` in debug mode (`indexing.hpp` lines
162-168): exceptions are not intercepted and propagate to the caller. -/
def buildIndexDebug (oracle : Phase → Option BuildExn) : Except BuildExn (Int × Report) :=
  match (runPhases indexPhases oracle).2 with
  | some e => .error e
  | none => .ok (0, .success)

/-! ## Helper lemmas -/

theorem foldl_analyzeStep_totalLength (cs : List (List Dna5)) :
    ∀ acc : DimAnalysis,
      (cs.foldl analyzeStep acc).totalLength = acc.totalLength + lengthSum cs := by
  induction cs with
  | nil => intro acc; simp [lengthSum]
  | cons c cs ih =>
    intro acc
    simp only [List.foldl_cons, ih, analyzeStep, lengthSum, List.map_cons, List.sum_cons]
    omega

theorem foldl_analyzeStep_maxSeqLength (cs : List (List Dna5)) :
    ∀ acc : DimAnalysis,
      (cs.foldl analyzeStep acc).maxSeqLength
        = (cs.map List.length).foldl max acc.maxSeqLength := by
  induction cs with
  | nil => intro acc; simp
  | cons c cs ih =>
    intro acc
    simp only [List.foldl_cons, ih, analyzeStep, List.map_cons]

theorem foldl_analyzeStep_canConvert (cs : List (List Dna5)) :
    ∀ acc : DimAnalysis,
      (cs.foldl analyzeStep acc).canConvert
        = (acc.canConvert && cs.all fun c => !(c.contains Dna5.N)) := by
  induction cs with
  | nil => intro acc; simp
  | cons c cs ih =>
    intro acc
    simp only [List.foldl_cons, ih, analyzeStep, List.all_cons, Bool.and_assoc]

theorem analyzeDimensions_totalLength (cs : List (List Dna5)) :
    (analyzeDimensions cs).totalLength = lengthSum cs + cs.length := by
  simp [analyzeDimensions, foldl_analyzeStep_totalLength]
  omega

theorem nat_foldl_max_eq_or_mem (l : List Nat) :
    ∀ a : Nat, l.foldl max a = a ∨ l.foldl max a ∈ l := by
  induction l with
  | nil => intro a; left; rfl
  | cons x xs ih =>
    intro a
    rw [List.foldl_cons]
    rcases ih (max a x) with h | h
    · rcases max_choice a x with hm | hm
      · left; rw [h, hm]
      · right; rw [h, hm]; exact List.mem_cons_self x xs
    · right; exact List.mem_cons_of_mem x h

theorem nat_le_foldl_max (l : List Nat) : ∀ a : Nat, a ≤ l.foldl max a := by
  induction l with
  | nil => intro a; exact Nat.le_refl a
  | cons x xs ih =>
    intro a
    exact Nat.le_trans (Nat.le_max_left a x) (ih (max a x))

theorem nat_mem_le_foldl_max (l : List Nat) :
    ∀ a : Nat, ∀ x ∈ l, x ≤ l.foldl max a := by
  induction l with
  | nil => intro a x hx; cases hx
  | cons y ys ih =>
    intro a x hx
    rcases List.mem_cons.mp hx with rfl | hx
    · exact Nat.le_trans (Nat.le_max_right a x) (nat_le_foldl_max ys (max a x))
    · exact ih (max a y) x hx

/-! ## Claims about the precision selector -/

/-- C1: the precision selector chooses the integer-width tiers
(seqNoWidth, seqPosWidth, totalLenWidth) exactly per the fixed decision
table: (16,32,32) when `sequenceCount` fits in 16 bits,
`maxSequenceLength` fits in 32 bits and `totalLength` fits in 32 bits;
(16,32,64) when the first two fit but `totalLength` does not fit in 32
bits; (32,16,64) when the first case fails but `sequenceCount` fits in 32
bits and `maxSequenceLength` fits in 16 bits; (64,64,64) otherwise —
where "fits in b bits" means the value is at most `2 ^ b - 1`. -/
theorem selectTiers_decision_table (sn msl tl : Nat) :
    (sn ≤ 2 ^ 16 - 1 → msl ≤ 2 ^ 32 - 1 → tl ≤ 2 ^ 32 - 1 →
      selectTiers sn msl tl = ⟨16, 32, 32⟩) ∧
    (sn ≤ 2 ^ 16 - 1 → msl ≤ 2 ^ 32 - 1 → ¬ tl ≤ 2 ^ 32 - 1 →
      selectTiers sn msl tl = ⟨16, 32, 64⟩) ∧
    (¬ (sn ≤ 2 ^ 16 - 1 ∧ msl ≤ 2 ^ 32 - 1) → sn ≤ 2 ^ 32 - 1 → msl ≤ 2 ^ 16 - 1 →
      selectTiers sn msl tl = ⟨32, 16, 64⟩) ∧
    (¬ (sn ≤ 2 ^ 16 - 1 ∧ msl ≤ 2 ^ 32 - 1) → ¬ (sn ≤ 2 ^ 32 - 1 ∧ msl ≤ 2 ^ 16 - 1) →
      selectTiers sn msl tl = ⟨64, 64, 64⟩) := by
  simp only [selectTiers, max16bitUnsignedValue, max32bitUnsignedValue]
  refine ⟨?_, ?_, ?_, ?_⟩ <;> intros <;> split_ifs <;> first | rfl | omega

/-- Witness for C1: the decision table evaluated on the spec's Scenario A
dimensions (3 sequences, max length 1,000,000, total length 1,000,153). -/
theorem selectTiers_decision_table_witness :
    selectTiers 3 1000000 1000153 = ⟨16, 32, 32⟩ :=
  (selectTiers_decision_table 3 1000000 1000153).1 (by norm_num) (by norm_num)
    (by norm_num)

/-- C3: tier selection is monotonic — increasing one of `sequenceCount`,
`maxSequenceLength` or `totalLength` (the other two unchanged) never
selects a narrower tier for that quantity than the previous selection. -/
theorem selectTiers_monotone (sn sn' msl msl' tl tl' : Nat) :
    (sn ≤ sn' →
      (selectTiers sn msl tl).seqNoWidth ≤ (selectTiers sn' msl tl).seqNoWidth) ∧
    (msl ≤ msl' →
      (selectTiers sn msl tl).seqPosWidth ≤ (selectTiers sn msl' tl).seqPosWidth) ∧
    (tl ≤ tl' →
      (selectTiers sn msl tl).totalLenWidth ≤ (selectTiers sn msl tl').totalLenWidth) := by
  simp only [selectTiers, max16bitUnsignedValue, max32bitUnsignedValue]
  refine ⟨?_, ?_, ?_⟩ <;> intro h <;> split_ifs <;> simp_all <;> omega

/-- Witness for C3: monotonicity applied at a concrete pair of inputs
(growing the sequence count across the 16-bit boundary). -/
theorem selectTiers_monotone_witness :
    (selectTiers 3 100 200).seqNoWidth ≤ (selectTiers 70000 100 200).seqNoWidth :=
  (selectTiers_monotone 3 70000 100 100 200 200).1 (by norm_num)

/-- Counterexample for C2: a collection with a single retained record of
999,999 symbols has `totalLength = 1,000,000` (sentinel included), yet the
small-input heuristic still forces sequential construction, because the
source compares `lengthSum` (no sentinels) against the threshold. -/
theorem adjustUseRadix_counterexample :
    adjustUseRadix true [List.replicate 999999 Dna5.A] = false ∧
    1000000 ≤ (analyzeDimensions [List.replicate 999999 Dna5.A]).totalLength := by
  have hls : lengthSum [List.replicate 999999 Dna5.A] = 999999 := by
    simp only [lengthSum, List.map_cons, List.map_nil, List.length_replicate,
      List.sum_cons, List.sum_nil, Nat.add_zero]
  constructor
  · simp only [adjustUseRadix, hls]
    norm_num
  · rw [analyzeDimensions_totalLength, hls]
    norm_num

/-- C2 amended: when the user requested the parallel (radix) construction
algorithm, sequential construction is forced iff the sum of the retained
record lengths (without the per-record sentinels) is strictly below
1,000,000 symbols. -/
theorem adjustUseRadix_spec (useRadix : Bool) (cs : List (List Dna5))
    (h : useRadix = true) :
    adjustUseRadix useRadix cs = false ↔ lengthSum cs < 1000000 := by
  subst h
  by_cases hl : lengthSum cs < 1000000 <;> simp [adjustUseRadix, hl]

/-- Witness for C2's amended statement: a single record of one symbol. -/
theorem adjustUseRadix_spec_witness :
    adjustUseRadix true [[Dna5.A]] = false ↔ lengthSum [[Dna5.A]] < 1000000 :=
  adjustUseRadix_spec true [[Dna5.A]] rfl

/-- C4: for every completed ingestion (no manual overrides), the computed
`totalLength` equals the sum of the retained record lengths plus the
number of retained records (one sentinel per record), and the computed
`maxSeqLength` equals the maximum retained record length (it bounds every
record length and is attained by one of them). -/
theorem analyzeDimensions_spec (cs : List (List Dna5)) :
    (analyzeDimensions cs).totalLength = (cs.map List.length).sum + cs.length ∧
    (∀ c ∈ cs, c.length ≤ (analyzeDimensions cs).maxSeqLength) ∧
    (cs ≠ [] → (analyzeDimensions cs).maxSeqLength ∈ cs.map List.length) := by
  refine ⟨analyzeDimensions_totalLength cs, ?_, ?_⟩
  · intro c hc
    rw [analyzeDimensions, foldl_analyzeStep_maxSeqLength]
    exact nat_mem_le_foldl_max (cs.map List.length) 0 c.length
      (List.mem_map_of_mem List.length hc)
  · intro hne
    rw [analyzeDimensions, foldl_analyzeStep_maxSeqLength]
    rcases nat_foldl_max_eq_or_mem (cs.map List.length) 0 with h | h
    · obtain ⟨c, hc⟩ := List.exists_mem_of_ne_nil cs hne
      have h1 : c.length ≤ (cs.map List.length).foldl max 0 :=
        nat_mem_le_foldl_max (cs.map List.length) 0 c.length
          (List.mem_map_of_mem List.length hc)
      rw [h] at h1 ⊢
      have h0 : c.length = 0 := Nat.le_zero.mp h1
      rw [← h0]
      exact List.mem_map_of_mem List.length hc
    · exact h

/-- Witness for C4: evaluated at a concrete two-record collection. -/
theorem analyzeDimensions_spec_witness :
    (analyzeDimensions [[Dna5.A], [Dna5.C, Dna5.G]]).totalLength
      = ([[Dna5.A], [Dna5.C, Dna5.G]].map List.length).sum + 2 ∧
    (analyzeDimensions [[Dna5.A], [Dna5.C, Dna5.G]]).maxSeqLength
      ∈ [[Dna5.A], [Dna5.C, Dna5.G]].map List.length :=
  ⟨(analyzeDimensions_spec [[Dna5.A], [Dna5.C, Dna5.G]]).1,
    (analyzeDimensions_spec [[Dna5.A], [Dna5.C, Dna5.G]]).2.2 (by decide)⟩

theorem analyzeDimensions_canConvert (cs : List (List Dna5)) :
    (analyzeDimensions cs).canConvert = true ↔ ∀ c ∈ cs, ∀ x ∈ c, x ≠ Dna5.N := by
  rw [analyzeDimensions, foldl_analyzeStep_canConvert]
  simp
  constructor
  · intro h c hc x hx heq
    exact h c hc (heq ▸ hx)
  · intro h c hc hN
    exact h c hc Dna5.N hN rfl

/-- C5: the collection is rewritten to the 4-symbol alphabet iff no symbol
of any retained sequence equals the unknown marker `N`, and the
`alphabet_size` entry written to the `.info` manifest equals 4 in the
reduced case and 5 otherwise. -/
theorem alphabet_canonicalization_spec (cs : List (List Dna5)) :
    ((analyzeDimensions cs).canConvert = true ↔ ∀ c ∈ cs, ∀ x ∈ c, x ≠ Dna5.N) ∧
    (alphabetSizeWritten cs = 4 ↔ ∀ c ∈ cs, ∀ x ∈ c, x ≠ Dna5.N) ∧
    (alphabetSizeWritten cs = 5 ↔ ¬ ∀ c ∈ cs, ∀ x ∈ c, x ≠ Dna5.N) := by
  have h := analyzeDimensions_canConvert cs
  by_cases hP : ∀ c ∈ cs, ∀ x ∈ c, x ≠ Dna5.N
  · have hc : (analyzeDimensions cs).canConvert = true := h.mpr hP
    refine ⟨h, ?_, ?_⟩
    · norm_num [alphabetSizeWritten, hc]
      exact hP
    · norm_num [alphabetSizeWritten, hc]
      exact fun x hx hN => hP x hx Dna5.N hN rfl
  · have hc : (analyzeDimensions cs).canConvert = false := by
      have hne : ¬ (analyzeDimensions cs).canConvert = true := mt h.mp hP
      simp only [Bool.not_eq_true] at hne
      exact hne
    refine ⟨h, ?_, ?_⟩
    · norm_num [alphabetSizeWritten, hc]
      push_neg at hP
      obtain ⟨c, hcm, x, hxm, hxe⟩ := hP
      exact ⟨c, hcm, hxe ▸ hxm⟩
    · norm_num [alphabetSizeWritten, hc]
      push_neg at hP
      obtain ⟨c, hcm, x, hxm, hxe⟩ := hP
      exact ⟨c, hcm, hxe ▸ hxm⟩

/-- Witness for C5: a collection with no `N` gets alphabet size 4, one
containing `N` gets alphabet size 5. -/
theorem alphabet_canonicalization_spec_witness :
    alphabetSizeWritten [[Dna5.A]] = 4 ∧ alphabetSizeWritten [[Dna5.N]] = 5 :=
  ⟨(alphabet_canonicalization_spec [[Dna5.A]]).2.1.mpr (by decide),
    (alphabet_canonicalization_spec [[Dna5.N]]).2.2.mpr (by decide)⟩

/-- Counterexample for C6: the hidden override given as bit-width 0 does
not replace the quantity by `2 ^ 0 - 2` (which would be -1); the 64-bit
wraparound of `(uint64_t(1) << 0) - 2` produces `2 ^ 64 - 1` instead. -/
theorem applyOverride_counterexample :
    ((applyOverride 3 (some 0) : Nat) : Int) ≠ 2 ^ 0 - 2 ∧
    applyOverride 3 (some 0) = 2 ^ 64 - 1 := by
  constructor
  · norm_num [applyOverride, overrideValue]
  · norm_num [applyOverride, overrideValue]

/-- C6 amended: for each of the three optional overrides given as a
bit-width `b` with `1 ≤ b ≤ 63`, the corresponding quantity is replaced by
`2 ^ b - 2` before tier selection, independently of the computed value
(`b = 0` wraps around to `2 ^ 64 - 1`, and `b ≥ 64` is an undefined shift
in the source); an absent override leaves the computed value unchanged,
and an override leaves the other two quantities unchanged. -/
theorem applyOverrides_spec (sn msl tl b : Nat) (hb1 : 1 ≤ b) (hb2 : b ≤ 63) :
    applyOverrides sn msl tl none none none = (sn, msl, tl) ∧
    (((applyOverrides sn msl tl (some b) none none).1 : Nat) : Int) = 2 ^ b - 2 ∧
    (((applyOverrides sn msl tl none (some b) none).2.1 : Nat) : Int) = 2 ^ b - 2 ∧
    (((applyOverrides sn msl tl none none (some b)).2.2 : Nat) : Int) = 2 ^ b - 2 ∧
    (applyOverrides sn msl tl (some b) none none).2.1 = msl ∧
    (applyOverrides sn msl tl (some b) none none).2.2 = tl := by
  have h2 : (2 : Nat) ≤ 2 ^ b := by
    calc (2 : Nat) = 2 ^ 1 := by norm_num
    _ ≤ 2 ^ b := Nat.pow_le_pow_right (by norm_num) hb1
  have h63 : (2 : Nat) ^ b ≤ 9223372036854775808 := by
    calc (2 : Nat) ^ b ≤ 2 ^ 63 := Nat.pow_le_pow_right (by norm_num) hb2
    _ = 9223372036854775808 := by norm_num
  have hval : overrideValue b = 2 ^ b - 2 := by
    rw [overrideValue]
    have h64 : (2 : Nat) ^ 64 = 18446744073709551616 := by norm_num
    rw [h64]
    omega
  have hcast : ((overrideValue b : Nat) : Int) = 2 ^ b - 2 := by
    rw [hval, Nat.cast_sub h2]
    push_cast
    ring
  exact ⟨rfl, hcast, hcast, hcast, rfl, rfl⟩

/-- Witness for C6's amended statement: bit-width 3 yields `2 ^ 3 - 2 = 6`
for each quantity, absent overrides change nothing. -/
theorem applyOverrides_spec_witness :
    applyOverrides 7 8 9 none none none = (7, 8, 9) ∧
    (((applyOverrides 7 8 9 (some 3) none none).1 : Nat) : Int) = 2 ^ 3 - 2 :=
  ⟨(applyOverrides_spec 7 8 9 3 (by decide) (by decide)).1,
    (applyOverrides_spec 7 8 9 3 (by decide) (by decide)).2.1⟩

theorem nat_list_sum_eq_zero {l : List Nat} (h : l.sum = 0) : ∀ x ∈ l, x = 0 := by
  induction l with
  | nil => intro x hx; cases hx
  | cons y ys ih =>
    intro x hx
    rw [List.sum_cons] at h
    rcases List.mem_cons.mp hx with rfl | hx
    · omega
    · exact ih (by omega) x hx

theorem foldl_if_append (rs : List SeqRecord) :
    ∀ acc : List SeqRecord,
      rs.foldl (fun acc r => if r.seq.length = 0 then acc else acc ++ [r]) acc
        = acc ++ rs.filter (fun r => decide (0 < r.seq.length)) := by
  induction rs with
  | nil => intro acc; simp
  | cons r rs ih =>
    intro acc
    rw [List.foldl_cons]
    by_cases h : r.seq.length = 0
    · rw [if_pos h, ih, List.filter_cons]
      simp [h]
    · rw [if_neg h, ih, List.filter_cons]
      have hp : 0 < r.seq.length := Nat.pos_of_ne_zero h
      simp [hp]

theorem ingestLoop_eq_filter (rs : List SeqRecord) :
    ingestLoop rs = rs.filter (fun r => decide (0 < r.seq.length)) := by
  rw [ingestLoop, foldl_if_append, List.nil_append]

theorem fileLengthSum_eq_zero_iff (rs : List SeqRecord) :
    fileLengthSum rs = 0 ↔ ∀ r ∈ rs, r.seq.length = 0 := by
  rw [fileLengthSum]
  constructor
  · intro h r hr
    exact nat_list_sum_eq_zero h _ (List.mem_map_of_mem _ hr)
  · intro h
    apply List.sum_eq_zero
    intro x hx
    obtain ⟨r, hr, rfl⟩ := List.mem_map.mp hx
    exact h r hr

theorem filter_pos_eq_nil_iff (rs : List SeqRecord) :
    rs.filter (fun r => decide (0 < r.seq.length)) = [] ↔
      ∀ r ∈ rs, r.seq.length = 0 := by
  rw [List.filter_eq_nil_iff]
  constructor
  · intro h r hr
    have := h r hr
    simp only [decide_eq_true_eq] at this
    omega
  · intro h r hr
    simp [h r hr]

theorem ingestFile_eq_filter (rs : List SeqRecord) :
    ingestFile rs = rs.filter (fun r => decide (0 < r.seq.length)) := by
  rw [ingestFile]
  by_cases h : fileLengthSum rs = 0
  · rw [if_pos h]
    exact ((filter_pos_eq_nil_iff rs).mpr ((fileLengthSum_eq_zero_iff rs).mp h)).symm
  · rw [if_neg h]
    exact ingestLoop_eq_filter rs

theorem foldl_append_flatMap {α β : Type} (g : α → List β) (l : List α) :
    ∀ acc : List β, l.foldl (fun a f => a ++ g f) acc = acc ++ l.flatMap g := by
  induction l with
  | nil => intro acc; simp
  | cons x xs ih =>
    intro acc
    rw [List.foldl_cons, ih, List.flatMap_cons, List.append_assoc]

theorem ingestDirectory_eq_flatMap (entries : List String)
    (content : String → List SeqRecord) :
    ingestDirectory entries content
      = (sortedFilenames entries).flatMap
          (fun f => (content f).filter (fun r => decide (0 < r.seq.length))) := by
  rw [ingestDirectory, foldl_append_flatMap, List.nil_append]
  congr 1
  funext f
  exact ingestFile_eq_filter (content f)

/-- C7: in both modes the records produced are exactly the decoded records
of strictly positive length, in processing order: single-file mode keeps
file order; directory mode processes the extension-filtered filenames in
lexicographic order (the processing order is sorted, is a permutation of
the surviving entries, and is independent of the filesystem enumeration
order), keeping file-internal order within each file. -/
theorem ingestion_order_spec (records : List SeqRecord)
    (entries entries' : List String) (content : String → List SeqRecord) :
    ingestSingle records = records.filter (fun r => decide (0 < r.seq.length)) ∧
    ingestDirectory entries content
      = (sortedFilenames entries).flatMap
          (fun f => (content f).filter (fun r => decide (0 < r.seq.length))) ∧
    (sortedFilenames entries).Sorted (fun a b => a ≤ b) ∧
    (sortedFilenames entries).Perm (entries.filter keepFile) ∧
    (entries.Perm entries' →
      ingestDirectory entries content = ingestDirectory entries' content) := by
  refine ⟨ingestLoop_eq_filter records, ingestDirectory_eq_flatMap entries content,
    List.sorted_insertionSort _ _, List.perm_insertionSort _ _, ?_⟩
  intro hperm
  have h1 : sortedFilenames entries = sortedFilenames entries' :=
    List.eq_of_perm_of_sorted
      ((List.perm_insertionSort _ _).trans
        ((hperm.filter keepFile).trans (List.perm_insertionSort _ _).symm))
      (List.sorted_insertionSort _ _) (List.sorted_insertionSort _ _)
  rw [ingestDirectory, ingestDirectory, h1]

/-- Witness for C7: enumeration order does not matter — two enumeration
orders of the same two-file directory ingest identically. -/
theorem ingestion_order_spec_witness :
    ingestDirectory ["b.fa", "a.fa"] (fun _ => [])
      = ingestDirectory ["a.fa", "b.fa"] (fun _ => []) :=
  (ingestion_order_spec [] ["b.fa", "a.fa"] ["a.fa", "b.fa"] (fun _ => [])).2.2.2.2
    (by decide)

/-- C8: ingestion fails with `EmptyInput` iff zero non-empty records are
retained overall — in single-file mode iff every decoded record is empty;
in directory mode iff every record of every extension-matching file is
empty, while an individual all-empty file merely lands on the warning
list. -/
theorem emptyInput_spec (records : List SeqRecord) (entries : List String)
    (content : String → List SeqRecord) :
    (ingestSingleChecked records = .error .EmptyInput ↔
      ∀ r ∈ records, r.seq.length = 0) ∧
    (ingestDirectoryChecked entries content = .error .EmptyInput ↔
      ∀ f ∈ entries.filter keepFile, ∀ r ∈ content f, r.seq.length = 0) ∧
    (∀ f ∈ sortedFilenames entries,
      (f ∈ directoryWarnings entries content ↔ ∀ r ∈ content f, r.seq.length = 0)) := by
  have hsingle : ingestSingle records = []
      ↔ ∀ r ∈ records, r.seq.length = 0 := by
    rw [ingestSingle, ingestLoop_eq_filter]
    exact filter_pos_eq_nil_iff records
  have hdir : ingestDirectory entries content = []
      ↔ ∀ f ∈ entries.filter keepFile, ∀ r ∈ content f, r.seq.length = 0 := by
    rw [ingestDirectory_eq_flatMap, List.flatMap_eq_nil_iff]
    constructor
    · intro h f hf
      exact (filter_pos_eq_nil_iff (content f)).mp
        (h f (((List.perm_insertionSort _ _).symm.mem_iff).mp hf))
    · intro h f hf
      exact (filter_pos_eq_nil_iff (content f)).mpr
        (h f (((List.perm_insertionSort _ _).mem_iff).mp hf))
  refine ⟨?_, ?_, ?_⟩
  · rw [ingestSingleChecked]
    by_cases hlen : (ingestSingle records).length = 0
    · rw [if_pos hlen]
      simp only [true_iff, iff_true]
      exact hsingle.mp (List.length_eq_zero.mp hlen)
    · rw [if_neg hlen]
      have hnot : ¬ ∀ r ∈ records, r.seq.length = 0 := fun hall =>
        hlen (by rw [hsingle.mpr hall]; rfl)
      exact ⟨fun h => absurd h (by simp), fun hall => absurd hall hnot⟩
  · rw [ingestDirectoryChecked]
    by_cases hlen : (ingestDirectory entries content).length = 0
    · rw [if_pos hlen]
      simp only [true_iff, iff_true]
      exact hdir.mp (List.length_eq_zero.mp hlen)
    · rw [if_neg hlen]
      have hnot : ¬ ∀ f ∈ entries.filter keepFile, ∀ r ∈ content f, r.seq.length = 0 :=
        fun hall => hlen (by rw [hdir.mpr hall]; rfl)
      exact ⟨fun h => absurd h (by simp), fun hall => absurd hall hnot⟩
  · intro f hf
    rw [directoryWarnings]
    constructor
    · intro hmem
      have := (List.mem_filter.mp hmem).2
      simp only [beq_iff_eq] at this
      exact (fileLengthSum_eq_zero_iff (content f)).mp this
    · intro hall
      apply List.mem_filter.mpr
      refine ⟨hf, ?_⟩
      simp only [beq_iff_eq]
      exact (fileLengthSum_eq_zero_iff (content f)).mpr hall

/-- Witness for C8: a directory with one extension-matching file whose
only record is empty fails with `EmptyInput`, and that file is on the
warning list. -/
theorem emptyInput_spec_witness :
    (ingestDirectoryChecked ["a.fa"] (fun _ => [⟨"s", []⟩])
        = .error .EmptyInput ↔
      ∀ f ∈ (["a.fa"] : List String).filter keepFile,
        ∀ r ∈ (fun _ : String => [(⟨"s", []⟩ : SeqRecord)]) f, r.seq.length = 0) ∧
    ("a.fa" ∈ directoryWarnings ["a.fa"] (fun _ => [⟨"s", []⟩]) ↔
      ∀ r ∈ (fun _ : String => [(⟨"s", []⟩ : SeqRecord)]) "a.fa", r.seq.length = 0) :=
  ⟨(emptyInput_spec [] ["a.fa"] (fun _ => [⟨"s", []⟩])).2.1,
    (emptyInput_spec [] ["a.fa"] (fun _ => [⟨"s", []⟩])).2.2 "a.fa" (by decide)⟩

theorem runPhases_none_iff (l : List Phase) (oracle : Phase → Option BuildExn) :
    (runPhases l oracle).2 = none ↔ ∀ p ∈ l, oracle p = none := by
  induction l with
  | nil => simp [runPhases]
  | cons p ps ih =>
    simp only [runPhases]
    cases h : oracle p with
    | some e => simp [h]
    | none => simp [h, ih]

theorem runPhases_done_of_none (l : List Phase) (oracle : Phase → Option BuildExn) :
    (runPhases l oracle).2 = none → (runPhases l oracle).1 = l := by
  induction l with
  | nil => intro; rfl
  | cons p ps ih =>
    simp only [runPhases]
    cases h : oracle p with
    | some e => simp
    | none =>
      intro h2
      simp only at h2 ⊢
      rw [ih h2]

/-- C9: in release mode an out-of-memory condition during construction is
reported as the distinct out-of-memory failure and any other exception as
the generic construction failure carrying its message, both with return
code -1; success (return code 0) is reported iff no phase raised, and then
every phase — in particular persisting the forward and the reverse
generation — has completed; in debug mode exceptions are not intercepted
at this layer. -/
theorem buildIndex_reporting_spec (oracle : Phase → Option BuildExn) :
    ((runPhases indexPhases oracle).2 = some .badAlloc →
      buildIndexRelease oracle = (-1, .outOfMemory)) ∧
    (∀ m, (runPhases indexPhases oracle).2 = some (.other m) →
      buildIndexRelease oracle = (-1, .constructionFailed m)) ∧
    (buildIndexRelease oracle = (0, .success) ↔ ∀ p ∈ indexPhases, oracle p = none) ∧
    (buildIndexRelease oracle = (0, .success) →
      Phase.saveFwd ∈ (runPhases indexPhases oracle).1 ∧
      Phase.saveBwd ∈ (runPhases indexPhases oracle).1) ∧
    (∀ e, buildIndexDebug oracle = .error e ↔
      (runPhases indexPhases oracle).2 = some e) := by
  cases hx : (runPhases indexPhases oracle).2 with
  | none =>
    have hrel : buildIndexRelease oracle = (0, .success) := by
      simp only [buildIndexRelease, hx]
    have hdbg : buildIndexDebug oracle = .ok (0, .success) := by
      simp only [buildIndexDebug, hx]
    have hdone := runPhases_done_of_none indexPhases oracle hx
    refine ⟨by simp, by simp, ?_, ?_, ?_⟩
    · rw [hrel]
      simp only [true_iff, iff_true]
      exact (runPhases_none_iff indexPhases oracle).mp hx
    · intro _
      rw [hdone]
      exact ⟨by simp [indexPhases], by simp [indexPhases]⟩
    · intro e
      rw [hdbg]
      simp
  | some e =>
    have hnotall : ¬ ∀ p ∈ indexPhases, oracle p = none := by
      intro hall
      have h0 := (runPhases_none_iff indexPhases oracle).mpr hall
      rw [hx] at h0
      cases h0
    cases e with
    | badAlloc =>
      have hrel : buildIndexRelease oracle = (-1, .outOfMemory) := by
        simp only [buildIndexRelease, hx]
      refine ⟨fun _ => hrel, ?_, ?_, ?_, ?_⟩
      · intro m h
        cases h
      · rw [hrel]
        exact ⟨fun h => absurd h (by simp), fun hall => absurd hall hnotall⟩
      · intro h
        rw [hrel] at h
        cases h
      · intro e
        simp only [buildIndexDebug, hx]
        simp
    | other m =>
      have hrel : buildIndexRelease oracle = (-1, .constructionFailed m) := by
        simp only [buildIndexRelease, hx]
      refine ⟨?_, ?_, ?_, ?_, ?_⟩
      · intro h
        cases h
      · intro m2 h
        cases h
        exact hrel
      · rw [hrel]
        exact ⟨fun h => absurd h (by simp), fun hall => absurd hall hnotall⟩
      · intro h
        rw [hrel] at h
        cases h
      · intro e
        simp only [buildIndexDebug, hx]
        simp
  
/-- Witness for C9: with no phase raising, release mode reports success
and both generations were persisted; with the backward build raising
`bad_alloc`, release mode reports the out-of-memory failure. -/
theorem buildIndex_reporting_spec_witness :
    (buildIndexRelease (fun _ => none) = (0, .success) ∧
      Phase.saveFwd ∈ (runPhases indexPhases (fun _ => none)).1 ∧
      Phase.saveBwd ∈ (runPhases indexPhases (fun _ => none)).1) ∧
    buildIndexRelease (fun p => if p = .buildBwd then some .badAlloc else none)
      = (-1, .outOfMemory) :=
  ⟨⟨((buildIndex_reporting_spec (fun _ => none)).2.2.1).mpr (by decide),
      (buildIndex_reporting_spec (fun _ => none)).2.2.2.1
        (((buildIndex_reporting_spec (fun _ => none)).2.2.1).mpr (by decide))⟩,
    (buildIndex_reporting_spec
        (fun p => if p = .buildBwd then some .badAlloc else none)).1 (by decide)⟩

theorem find_last_of_eq_none (s : List Char) (ch : Char) :
    find_last_of s ch = none ↔ ∀ c ∈ s, c ≠ ch := by
  induction s with
  | nil => simp [find_last_of]
  | cons x xs ih =>
    simp only [find_last_of]
    cases h : find_last_of xs ch with
    | some i =>
      have hnot : ¬ ∀ c ∈ xs, c ≠ ch := by
        rw [← ih, h]
        simp
      constructor
      · intro hh
        cases hh
      · intro hall
        exact absurd (fun c hc => hall c (List.mem_cons_of_mem x hc)) hnot
    | none =>
      by_cases hx : x = ch
      · subst hx
        simp [List.forall_mem_cons]
      · simp [hx, List.forall_mem_cons]
        exact ih.mp h

/-- C10: in directory mode the extension used for filtering is the
substring after the last dot of the entry name; a name without any dot is
its own extension (so a file literally named `fa` is included), a dotfile
like `.fa` is included, and an entry whose extension is not in the
recognized set is excluded. -/
theorem extension_filter_spec :
    (∀ name : String, (∀ c ∈ name.toList, c ≠ '.') → fileExtension name = name) ∧
    keepFile "fa" = true ∧
    keepFile ".fa" = true ∧
    (∀ name : String, fileExtension name ∉ fastaFileTypes → keepFile name = false) := by
  refine ⟨?_, by decide, by decide, ?_⟩
  · intro name h
    have h0 : find_last_of name.toList '.' = none :=
      (find_last_of_eq_none name.toList '.').mpr h
    simp only [fileExtension, h0, List.drop_zero]
    rfl
  · intro name h
    simpa [keepFile] using h

/-- Witness for C10: a dotless name is its own extension. -/
theorem extension_filter_spec_witness :
    fileExtension "fa" = "fa" ∧ keepFile "x.txt" = false :=
  ⟨extension_filter_spec.1 "fa" (by decide),
    extension_filter_spec.2.2.2 "x.txt" (by decide)⟩

end GenMap
